import Mathlib

/-!
Shallow embedding of the vector-store core of `recipe_optim`
(`src/search/nano_vector_db.rs` and `src/search/ann_engine.rs`).

Modelling conventions:
* `f32` values are modelled by `F`: either `F.nan` or a finite real
  (`F.fin x`).  Infinities and signed zero are not modelled; arithmetic on
  finite values is exact real arithmetic, and any operation touching a NaN
  produces NaN, as IEEE arithmetic does.
* Rust comparison operators on `f32` (`<`, `>=`, `==`) are false whenever a
  NaN is involved, which `F.lt`, `F.ge` and structural equality with
  `F.fin _` reproduce.
* `HashMap<String, Value>` (entry metadata and query-result maps) is
  modelled as an association list with overwriting insert (`upsertAssoc`)
  and lookup (`lookupAssoc`); only insert, lookup and whole-map replacement
  are used by the code under study.
* `BinaryHeap<ScoredIndex>` is modelled as a list kept sorted ascending in
  the `Ord` given by the source's `impl Ord for ScoredIndex` (`siCmp`):
  `push` is ordered insertion, `pop` removes the last element (an
  `Ord`-greatest element, exactly what `BinaryHeap::pop` removes), and
  `into_sorted_vec` is the list itself.  Which of several `Ord`-equal
  elements is evicted is unspecified in the source as well.
-/

namespace RecipeOptim

/-- Model of `f32`: a NaN or a finite real number. -/
inductive F where
  | nan : F
  | fin (x : ℝ) : F

/-- Addition on `f32`: NaN-propagating, exact on finite values. -/
noncomputable def F.add : F → F → F
  | .fin a, .fin b => .fin (a + b)
  | _, _ => .nan

/-- Multiplication on `f32`: NaN-propagating, exact on finite values. -/
noncomputable def F.mul : F → F → F
  | .fin a, .fin b => .fin (a * b)
  | _, _ => .nan

/-- Division on `f32` (used only with a non-zero divisor in the source). -/
noncomputable def F.div : F → F → F
  | .fin a, .fin b => .fin (a / b)
  | _, _ => .nan

/-- `f32::sqrt` (used only on non-negative arguments in the source). -/
noncomputable def F.sqrt : F → F
  | .fin a => .fin (Real.sqrt a)
  | .nan => .nan

/-- Rust `<` on `f32`: false whenever a NaN is involved. -/
def F.lt : F → F → Prop
  | .fin a, .fin b => a < b
  | _, _ => False

/-- Rust `>=` on `f32`: false whenever a NaN is involved. -/
def F.ge : F → F → Prop
  | .fin a, .fin b => b ≤ a
  | _, _ => False

/-- `f32::is_nan`. -/
def F.isNan : F → Bool
  | .nan => true
  | .fin _ => false

/-- The real value of a finite `F` (0 for NaN; only used on finite values). -/
noncomputable def F.toR : F → ℝ
  | .nan => 0
  | .fin x => x

noncomputable instance : DecidableEq F := fun _ _ => Classical.dec _

noncomputable instance (a b : F) : Decidable (F.lt a b) := Classical.dec _

noncomputable instance (a b : F) : Decidable (F.ge a b) := Classical.dec _

/-- `f32::EPSILON` = 2⁻²³. -/
noncomputable def EPS : ℝ := (2 : ℝ) ^ (-23 : ℤ)

/-- `f32::partial_cmp`: `none` whenever a NaN is involved, otherwise the
three-way comparison of the finite values. -/
noncomputable def fpartialCmp : F → F → Option Ordering
  | .fin a, .fin b => some (if a < b then .lt else if b < a then .gt else .eq)
  | _, _ => none

/-- `struct ScoredIndex { score: Float, index: usize }`. -/
structure ScoredIndex where
  score : F
  index : Nat

/-- `impl Ord for ScoredIndex` from the source: the comparison is
`other.score.partial_cmp(&self.score)` (note the reversal), and when that is
`None` the NaN branch makes a NaN-scored element compare `Less` than a
real-scored one. -/
noncomputable def siCmp (self other : ScoredIndex) : Ordering :=
  match fpartialCmp other.score self.score with
  | some o => o
  | none =>
    if self.score.isNan && !other.score.isNan then .lt
    else if !self.score.isNan && other.score.isNan then .gt
    else .eq

/-- `a` may precede `b` in the heap's ascending `Ord` order. -/
def siLE (a b : ScoredIndex) : Prop := siCmp a b ≠ .gt

noncomputable instance : DecidableRel siLE := fun _ _ => Classical.dec _

/-- `BinaryHeap::push`, on the sorted-list model of the heap. -/
noncomputable def heapPush (x : ScoredIndex) (h : List ScoredIndex) : List ScoredIndex :=
  List.orderedInsert siLE x h

/-- `BinaryHeap::pop` discards an `Ord`-greatest element: the last element of
the ascending sorted-list model. -/
def heapPopMax (h : List ScoredIndex) : List ScoredIndex := h.dropLast

/-- Field name `__id__` (`constants::F_ID`). -/
def F_ID : String := "__id__"

/-- Field name `__metrics__` (`constants::F_METRICS`). -/
def F_METRICS : String := "__metrics__"

/-- Model of `serde_json::Value` as far as the store observes it. -/
inductive JVal where
  | jnull : JVal
  | jbool (b : Bool) : JVal
  | jnum (x : F) : JVal
  | jstr (s : String) : JVal

/-- Metadata maps (`HashMap<String, serde_json::Value>`). -/
abbrev Fields := List (String × JVal)

/-- `HashMap::insert`: overwrite the binding of the key if present, else add
it. -/
def upsertAssoc {α : Type} : List (String × α) → String → α → List (String × α)
  | [], k, v => [(k, v)]
  | (k', v') :: t, k, v =>
    if k' = k then (k, v) :: t else (k', v') :: upsertAssoc t k v

/-- `HashMap::get`. -/
def lookupAssoc {α : Type} : List (String × α) → String → Option α
  | [], _ => none
  | (k', v) :: t, k => if k' = k then some v else lookupAssoc t k

/-- `struct Data { id, vector, fields }`.  `vector` carries
`#[serde(skip)]`, so it round-trips through persistence as the empty
vector. -/
structure Data where
  id : String
  vector : List F
  fields : Fields

/-- `struct DataBase`: the in-memory state of `NanoVectorDB` (its
`storage`).  `NanoVectorDB.embedding_dim` always equals
`storage.embedding_dim` — `new` either loads a container with a matching
dimension or creates an empty one with the requested dimension — so the
store is modelled by `DataBase` alone. -/
structure DataBase where
  embedding_dim : Nat
  data : List Data
  matrix : List F
  additional_data : Fields

/-- The empty store `new` constructs when no prior snapshot exists. -/
def emptyDB (dim : Nat) : DataBase :=
  { embedding_dim := dim, data := [], matrix := [], additional_data := [] }

/-- One `{__id__, ...fields}` object of the persisted `data` array; vectors
are not embedded per entry. -/
structure PersistedEntry where
  id : String
  fields : Fields

/-- The persisted container: `embedding_dim`, `data`, `matrix` (already
decoded from its base64 text form), `additional_data`. -/
structure PersistedDB where
  embedding_dim : Nat
  data : List PersistedEntry
  matrix : List F
  additional_data : Fields

/-- `NanoVectorDB::new` on an existing, non-empty, well-formed JSON file:
validates the persisted dimension against the requested one and the matrix
length against `data.len() * embedding_dim`.  Because `Data.vector` is
`#[serde(skip)]`, every deserialized entry's `vector` is the empty
vector. -/
def loadDB (embedding_dim : Nat) (p : PersistedDB) : Except String DataBase :=
  if p.embedding_dim ≠ embedding_dim then
    .error ("Embedding dimension mismatch: DB has " ++ toString p.embedding_dim
      ++ ", expected " ++ toString embedding_dim)
  else if p.matrix.length ≠ p.data.length * p.embedding_dim then
    .error ("Matrix size mismatch: expected "
      ++ toString (p.data.length * p.embedding_dim) ++ ", got "
      ++ toString p.matrix.length)
  else
    .ok { embedding_dim := p.embedding_dim
          data := p.data.map fun e => { id := e.id, vector := [], fields := e.fields }
          matrix := p.matrix
          additional_data := p.additional_data }

/-- `norm_sq`: sum of squares, left fold from `0.0` as `Iterator::sum`
computes it. -/
noncomputable def normSq (v : List F) : F :=
  ((v.map fun x => x.mul x).foldl F.add (F.fin 0))

/-- `normalize` from the source: returns the zero vector when `norm_sq` is
exactly zero (tested twice, once under the `norm_sq < EPSILON²` guard and
once unconditionally), otherwise scales by `1.0 / norm_sq.sqrt()`. -/
noncomputable def normalize (v : List F) : List F :=
  let norm_sq := normSq v
  if F.lt norm_sq (F.fin (EPS * EPS)) ∧ norm_sq = F.fin 0 then
    List.replicate v.length (F.fin 0)
  else if norm_sq = F.fin 0 then
    List.replicate v.length (F.fin 0)
  else
    let inv_norm := F.div (F.fin 1) (F.sqrt norm_sq)
    v.map fun x => x.mul inv_norm

/-- `simple_dot_product`: `zip` truncates at the shorter vector, exactly as
`Iterator::zip` does. -/
noncomputable def simple_dot_product (v w : List F) : F :=
  ((List.zipWith F.mul v w).foldl F.add (F.fin 0))

/-- The `existing_ids_map` built at the top of `upsert`: ids of the current
entries mapped to their positions, collected left to right into a `HashMap`
(a later duplicate id overwrites an earlier one, as `collect` does). -/
def existingIdsMap (data : List Data) : List (String × Nat) :=
  data.enum.foldl (fun m p => upsertAssoc m p.2.id p.1) []

/-- The first loop of `upsert` over the batch.  An item whose id is in
`existing` is an update: its matrix slice is overwritten with the normalized
vector and its `fields` are replaced (the entry's `vector` field is *not*
touched), provided the slice end fits inside the matrix (otherwise the item
is skipped with a logged error).  `copy_from_slice` panics when the source
length differs from the slice length `embedding_dim`; the panic is modelled
as `none`.  An item whose id is not in `existing` is queued in order on
`newItems`. -/
noncomputable def applyBatch (dim : Nat) (existing : List (String × Nat)) :
    DataBase → List String → List Data → List Data →
    Option (DataBase × List String × List Data)
  | db, updates, newItems, [] => some (db, updates, newItems)
  | db, updates, newItems, item :: rest =>
    match lookupAssoc existing item.id with
    | some pos =>
      let norm_vec := normalize item.vector
      let start := pos * dim
      let stop := start + dim
      if stop ≤ db.matrix.length then
        if norm_vec.length = dim then
          let matrix := db.matrix.take start ++ norm_vec ++ db.matrix.drop stop
          let data :=
            match db.data[pos]? with
            | some d => db.data.set pos { d with fields := item.fields }
            | none => db.data
          applyBatch dim existing { db with matrix := matrix, data := data }
            (updates ++ [item.id]) newItems rest
        else
          none
      else
        applyBatch dim existing db updates newItems rest
    | none => applyBatch dim existing db updates (newItems ++ [item]) rest

/-- The second loop of `upsert`: each genuinely new item's normalized vector
is appended to the matrix tail and a new entry (whose `vector` field holds
the normalized vector) is appended to `data`. -/
noncomputable def appendNew : DataBase → List String → List Data → DataBase × List String
  | db, inserts, [] => (db, inserts)
  | db, inserts, item :: rest =>
    let norm_vec := normalize item.vector
    appendNew
      { db with matrix := db.matrix ++ norm_vec
                data := db.data ++ [{ id := item.id, vector := norm_vec, fields := item.fields }] }
      (inserts ++ [item.id]) rest

/-- `NanoVectorDB::upsert`.  Returns `(updated_ids, inserted_ids)` and the
new store; `none` models the `copy_from_slice` panic on a wrong-length
update.  Note that no code path validates a vector's dimension. -/
noncomputable def upsert (db : DataBase) (batch : List Data) :
    Option (List String × List String × DataBase) :=
  let existing := existingIdsMap db.data
  match applyBatch db.embedding_dim existing db [] [] batch with
  | none => none
  | some (db1, updates, newItems) =>
    let (db2, inserts) := appendNew db1 [] newItems
    some (updates, inserts, db2)

/-- `NanoVectorDB::delete`: keep the entries whose id is not listed and
rebuild the matrix from the survivors' `vector` fields; returns the number
removed. -/
def delete (db : DataBase) (ids_to_delete : List String) : Nat × DataBase :=
  let new_data := db.data.filter fun d => !(ids_to_delete.contains d.id)
  let new_matrix := new_data.foldl (fun m d => m ++ d.vector) []
  (db.data.length - new_data.length,
   { db with data := new_data, matrix := new_matrix })

/-- `NanoVectorDB::len`. -/
def dbLen (db : DataBase) : Nat := db.data.length

/-- The result map built for one kept candidate: the entry's fields, then
`__metrics__` (the score) and `__id__` inserted into the clone. -/
noncomputable def mkResult (db : DataBase) (si : ScoredIndex) : Fields :=
  let d := db.data.getD si.index { id := "", vector := [], fields := [] }
  upsertAssoc (upsertAssoc d.fields F_METRICS (JVal.jnum si.score)) F_ID (JVal.jstr d.id)

/-- The body of `query`'s scan loop for one `(idx, data_item)` pair: apply
the filter, slice the matrix row (skipping with a logged error if the slice
end overruns the matrix), score it against the normalized query, and if the
score passes the threshold push it, evicting once the heap exceeds
`top_k`. -/
noncomputable def queryStep (db : DataBase) (query_norm : List F) (threshold : F)
    (top_k : Nat) (filter : Option (Data → Bool))
    (heap : List ScoredIndex) (p : Nat × Data) : List ScoredIndex :=
  if (filter.map fun f => f p.2).getD true then
    let start := p.1 * db.embedding_dim
    let stop := start + db.embedding_dim
    if stop > db.matrix.length then heap
    else
      let vector_to_compare := (db.matrix.take stop).drop start
      let score := simple_dot_product vector_to_compare query_norm
      if F.ge score threshold then
        let heap' := heapPush { score := score, index := p.1 } heap
        if heap'.length > top_k then heapPopMax heap' else heap'
      else heap
  else heap

/-- `NanoVectorDB::query`: empty store short-circuits; otherwise normalize
the query, scan every entry through `queryStep` with threshold
`better_than.unwrap_or(-1.0)`, and emit the heap's ascending
`into_sorted_vec` (highest score first) as result maps. -/
noncomputable def query (db : DataBase) (q : List F) (top_k : Nat)
    (better_than : Option F) (filter : Option (Data → Bool)) : List Fields :=
  if db.data.isEmpty then []
  else
    let query_norm := normalize q
    let threshold := better_than.getD (F.fin (-1))
    let heap := db.data.enum.foldl (queryStep db query_norm threshold top_k filter) []
    heap.map (mkResult db)

/-- `struct AnnEngine { db, dimension }`; `new(dimension)` builds the inner
store with the same dimension, so `dimension = db.embedding_dim` for every
engine the code constructs. -/
structure AnnEngine where
  db : DataBase
  dimension : Nat

/-- The error message `add_items_batch` produces for a wrong-length item,
naming the offending id. -/
def dimMismatchMsg (id : String) (expected got : Nat) : String :=
  "Embedding dimension mismatch for item " ++ id ++ ". Expected "
    ++ toString expected ++ ", got " ++ toString got ++ "."

/-- The item-construction loop of `add_items_batch`: walks the zipped
`(embedding, id)` pairs and fails on the first whose length differs from the
engine's dimension, before anything is upserted. -/
def buildItems (dim : Nat) : List (List F × String) → Except String (List Data)
  | [] => .ok []
  | (emb, id) :: rest =>
    if emb.length ≠ dim then
      .error (dimMismatchMsg id dim emb.length)
    else
      match buildItems dim rest with
      | .error e => .error e
      | .ok items => .ok ({ id := id, vector := emb, fields := [] } :: items)

/-- `AnnEngine::add_items_batch`: count-mismatch check, per-item dimension
check (first offender wins), then upsert + save.  `save` only performs file
I/O, so the in-memory state it leaves is the upserted store. -/
noncomputable def addItemsBatch (eng : AnnEngine) (embeddings : List (List F))
    (ids : List String) : Except String AnnEngine :=
  if embeddings.length ≠ ids.length then
    .error ("Embeddings and IDs count mismatch: " ++ toString embeddings.length
      ++ " vs " ++ toString ids.length)
  else
    match buildItems eng.dimension (embeddings.zip ids) with
    | .error e => .error e
    | .ok items =>
      if items.isEmpty then .ok eng
      else
        match upsert eng.db items with
        | none => .error "Failed to upsert batch to NanoVectorDB"
        | some (_, _, db') => .ok { eng with db := db' }

/-- `AnnEngine::search`: a query whose length differs from the engine's
dimension degrades to an empty result (with a logged diagnostic); otherwise
the store is queried and the `__id__` string of each result map is
extracted. -/
noncomputable def annSearch (eng : AnnEngine) (query_embedding : List F) (k : Nat) :
    List String :=
  if query_embedding.length ≠ eng.dimension then []
  else
    (query eng.db query_embedding k none none).filterMap fun result_map =>
      match lookupAssoc result_map F_ID with
      | some (JVal.jstr s) => some s
      | _ => none

/-! ### Persistence codec (`mod base64_bytes`)

The float matrix is serialized by reinterpreting the `f32` buffer as bytes
(`bytemuck::cast_slice`, little-endian bit patterns) and base64-encoding the
bytes (`general_purpose::STANDARD`: RFC 4648 alphabet, canonical `=`
padding, non-canonical trailing bits rejected); deserialization decodes the
text and rebuilds one float per exact 4-byte chunk
(`f32::from_le_bytes`).  Floats are modelled here by their 32-bit patterns
(`Nat < 2³²`), which is the bit-for-bit level the codec works at. -/

/-- RFC 4648 standard base64 alphabet. -/
def b64Alphabet : List Char :=
  "ABCDEFGHIJKLMNOPQRSTUVWXYZabcdefghijklmnopqrstuvwxyz0123456789+/".toList

/-- The character encoding a six-bit group. -/
def b64Char (n : Nat) : Char := b64Alphabet.getD n '?'

/-- Position of a character in `l`, counting from `i`. -/
def b64IndexFrom : List Char → Char → Nat → Option Nat
  | [], _, _ => none
  | a :: t, c, i => if a = c then some i else b64IndexFrom t c (i + 1)

/-- The six-bit value of a base64 character (`none` for a character outside
the alphabet, which makes decoding fail). -/
def b64Index (c : Char) : Option Nat := b64IndexFrom b64Alphabet c 0

/-- Base64 encoding of a byte string: three bytes become four characters;
a final one- or two-byte group is padded with `=`. -/
def b64EncodeBytes : List Nat → List Char
  | a :: b :: c :: rest =>
    b64Char (a / 4) :: b64Char (a % 4 * 16 + b / 16) :: b64Char (b % 16 * 4 + c / 64)
      :: b64Char (c % 64) :: b64EncodeBytes rest
  | [a, b] => [b64Char (a / 4), b64Char (a % 4 * 16 + b / 16), b64Char (b % 16 * 4), '=']
  | [a] => [b64Char (a / 4), b64Char (a % 4 * 16), '=', '=']
  | [] => []

/-- Strict base64 decoding as `general_purpose::STANDARD` performs it: the
length must be a multiple of four, `=` may appear only as canonical padding
of the final quad, characters outside the alphabet and non-zero trailing
bits are rejected. -/
def b64DecodeBytes : List Char → Option (List Nat)
  | [] => some []
  | c1 :: c2 :: c3 :: c4 :: rest =>
    if rest = [] ∧ c4 = '=' then
      if c3 = '=' then
        match b64Index c1, b64Index c2 with
        | some i1, some i2 =>
          if i2 % 16 = 0 then some [i1 * 4 + i2 / 16] else none
        | _, _ => none
      else
        match b64Index c1, b64Index c2, b64Index c3 with
        | some i1, some i2, some i3 =>
          if i3 % 4 = 0 then some [i1 * 4 + i2 / 16, i2 % 16 * 16 + i3 / 4] else none
        | _, _, _ => none
    else
      match b64Index c1, b64Index c2, b64Index c3, b64Index c4, b64DecodeBytes rest with
      | some i1, some i2, some i3, some i4, some bs =>
        some ((i1 * 4 + i2 / 16) :: (i2 % 16 * 16 + i3 / 4) :: (i3 % 4 * 64 + i4) :: bs)
      | _, _, _, _, _ => none
  | _ => none

/-- Little-endian byte quadruple of one 32-bit float bit pattern, as
`bytemuck::cast_slice` lays an `f32` out in memory. -/
def wordLeBytes (w : Nat) : List Nat :=
  [w % 256, w / 256 % 256, w / 65536 % 256, w / 16777216 % 256]

/-- `f32::from_le_bytes` at the bit-pattern level, on one 4-byte chunk. -/
def wordOfLeBytes : List Nat → Nat
  | [b0, b1, b2, b3] => b0 + 256 * b1 + 65536 * b2 + 16777216 * b3
  | _ => 0

/-- `chunks_exact(4)`: full 4-byte chunks, any remainder dropped. -/
def chunksExact4 : List Nat → List (List Nat)
  | b0 :: b1 :: b2 :: b3 :: rest => [b0, b1, b2, b3] :: chunksExact4 rest
  | _ => []

/-- `base64_bytes::serialize`: the float buffer (as bit patterns), cast to
little-endian bytes and text-encoded. -/
def serializeMatrix (ws : List Nat) : List Char :=
  b64EncodeBytes (ws.map wordLeBytes).flatten

/-- `base64_bytes::deserialize`: decode the text and rebuild one float (bit
pattern) per exact 4-byte chunk. -/
def deserializeMatrix (s : List Char) : Option (List Nat) :=
  (b64DecodeBytes s).map fun bytes => (chunksExact4 bytes).map wordOfLeBytes

/-! ### Derived notions used by the statements -/

/-- The matrix row of entry `i`: the slice
`matrix[i*embedding_dim .. (i+1)*embedding_dim]` exactly as `query` reads
it. -/
noncomputable def rowSlice (db : DataBase) (i : Nat) : List F :=
  (db.matrix.take (i * db.embedding_dim + db.embedding_dim)).drop (i * db.embedding_dim)

/-- The similarity score `query` computes for entry `i` against query `q`:
the dot product of the row slice with the normalized query. -/
noncomputable def scoreAt (db : DataBase) (q : List F) (i : Nat) : F :=
  simple_dot_product (rowSlice db i) (normalize q)

/-- Sum of squares of a real vector. -/
def sumSq (v : List ℝ) : ℝ := (v.map fun x => x * x).sum

/-- Dot product of real vectors (truncating at the shorter one, as
`Iterator::zip` does). -/
def dotR (v w : List ℝ) : ℝ := (List.zipWith (· * ·) v w).sum

/-- Row `i` of a real matrix laid out like the store's dense matrix. -/
def realRow (m : List ℝ) (dim i : Nat) : List ℝ :=
  (m.take (i * dim + dim)).drop (i * dim)

/-! ### Concrete stores used as failing inputs and witnesses -/

/-- A persisted two-entry store of dimension 1 (as `save` would write it:
vectors only inside `matrix`). -/
noncomputable def c1Persisted : PersistedDB :=
  { embedding_dim := 1
    data := [{ id := "a", fields := [] }, { id := "b", fields := [] }]
    matrix := [F.fin 1, F.fin 1]
    additional_data := [] }

/-- The in-memory store `new` builds from `c1Persisted`: every entry's
`vector` is empty because of `#[serde(skip)]`. -/
noncomputable def c1Loaded : DataBase :=
  { embedding_dim := 1
    data := [{ id := "a", vector := [], fields := [] },
             { id := "b", vector := [], fields := [] }]
    matrix := [F.fin 1, F.fin 1]
    additional_data := [] }

/-- The store produced by upserting two distinct new items that share the id
`"x"` into an empty store of dimension 1. -/
noncomputable def c7DB : DataBase :=
  { embedding_dim := 1
    data := [{ id := "x", vector := [F.fin 0], fields := [] },
             { id := "x", vector := [F.fin 0], fields := [] }]
    matrix := [F.fin 0, F.fin 0]
    additional_data := [] }

/-- The store produced by upserting the single new item `"x"` into an empty
store of dimension 1. -/
noncomputable def c7WitDB : DataBase :=
  { embedding_dim := 1
    data := [{ id := "x", vector := [F.fin 0], fields := [] }]
    matrix := [F.fin 0]
    additional_data := [] }

/-- The store produced by upserting one wrong-length (length-1) vector into
an empty store of dimension 2. -/
noncomputable def c3DB : DataBase :=
  { embedding_dim := 2
    data := [{ id := "a", vector := [F.fin 0], fields := [] }]
    matrix := [F.fin 0]
    additional_data := [] }

/-- The single entry of the store used to witness the update semantics. -/
noncomputable def c5Entry : Data :=
  { id := "a", vector := [F.fin 1], fields := [("color", JVal.jstr "red")] }

/-- A one-entry store of dimension 1 used to witness the update
semantics. -/
noncomputable def c5DB : DataBase :=
  { embedding_dim := 1
    data := [c5Entry]
    matrix := [F.fin 1]
    additional_data := [] }

/-- A two-entry store of dimension 1 with unit rows used to witness the
bounded top-k behaviour. -/
noncomputable def c4DB : DataBase :=
  { embedding_dim := 1
    data := [{ id := "a", vector := [F.fin 1], fields := [] },
             { id := "b", vector := [F.fin 0], fields := [] }]
    matrix := [F.fin 1, F.fin 0]
    additional_data := [] }

/-! ### Basic lemmas about the float model -/

theorem F.ge_iff_fin (a b : F) : F.ge a b ↔ ∃ x y : ℝ, a = F.fin x ∧ b = F.fin y ∧ y ≤ x := by
  cases a <;> cases b <;> simp [F.ge]

theorem F.not_ge_nan (t : F) : ¬ F.ge F.nan t := by
  cases t <;> simp [F.ge]

theorem sumSq_nil : sumSq [] = 0 := rfl

theorem sumSq_cons (a : ℝ) (v : List ℝ) : sumSq (a :: v) = a * a + sumSq v := by
  simp [sumSq]

theorem sumSq_nonneg (v : List ℝ) : 0 ≤ sumSq v := by
  induction v with
  | nil => simp [sumSq_nil]
  | cons a t ih => rw [sumSq_cons]; nlinarith [mul_self_nonneg a]

theorem dotR_nil (w : List ℝ) : dotR [] w = 0 := rfl

theorem dotR_nil_right (v : List ℝ) : dotR v [] = 0 := by
  cases v <;> rfl

theorem dotR_cons (a b : ℝ) (v w : List ℝ) :
    dotR (a :: v) (b :: w) = a * b + dotR v w := by
  simp [dotR]

/-- Cauchy–Schwarz for truncating list dot products. -/
theorem dotR_sq_le (v w : List ℝ) : dotR v w ^ 2 ≤ sumSq v * sumSq w := by
  induction v generalizing w with
  | nil => simp [dotR_nil, sumSq_nil]
  | cons a v ih =>
    cases w with
    | nil => simp [dotR_nil_right, sumSq_nil]
    | cons b w =>
      rw [dotR_cons, sumSq_cons, sumSq_cons]
      have hd := ih w
      have hS := sumSq_nonneg v
      have hT := sumSq_nonneg w
      set d := dotR v w
      set S := sumSq v
      set T := sumSq w
      rcases eq_or_lt_of_le hT with hT0 | hT0
      · have hd0 : d = 0 := by nlinarith [sq_nonneg d]
        rw [hd0, ← hT0]
        nlinarith [mul_nonneg hS (mul_self_nonneg b)]
      · nlinarith [sq_nonneg (a * T - b * d), mul_nonneg (sq_nonneg b) (sub_nonneg.2 hd),
          mul_nonneg hT (sub_nonneg.2 hd)]

theorem dotR_bounds (v w : List ℝ) (hv : sumSq v ≤ 1) (hw : sumSq w ≤ 1) :
    -1 ≤ dotR v w ∧ dotR v w ≤ 1 := by
  have h := dotR_sq_le v w
  have h1 : dotR v w ^ 2 ≤ 1 := by
    calc dotR v w ^ 2 ≤ sumSq v * sumSq w := h
    _ ≤ 1 := by nlinarith [sumSq_nonneg v, sumSq_nonneg w]
  constructor
  · nlinarith [sq_nonneg (dotR v w + 1)]
  · nlinarith [sq_nonneg (dotR v w - 1)]

theorem foldl_add_map_fin (l : List ℝ) (a : ℝ) :
    (l.map F.fin).foldl F.add (F.fin a) = F.fin (a + l.sum) := by
  induction l generalizing a with
  | nil => simp
  | cons x t ih => simp [F.add, ih, add_assoc]

theorem normSq_map_fin (v : List ℝ) : normSq (v.map F.fin) = F.fin (sumSq v) := by
  have hmap : (v.map F.fin).map (fun x => x.mul x) = (v.map fun x => x * x).map F.fin := by
    induction v with
    | nil => rfl
    | cons a t ih => simp [F.mul, ih]
  rw [normSq, hmap, foldl_add_map_fin, sumSq, zero_add]

theorem sdp_map_fin (v w : List ℝ) :
    simple_dot_product (v.map F.fin) (w.map F.fin) = F.fin (dotR v w) := by
  have hzip : List.zipWith F.mul (v.map F.fin) (w.map F.fin)
      = (List.zipWith (· * ·) v w).map F.fin := by
    induction v generalizing w with
    | nil => simp
    | cons a t ih => cases w <;> simp [F.mul, ih]
  rw [simple_dot_product, hzip, foldl_add_map_fin, dotR, zero_add]

theorem EPS_sq_pos : (0 : ℝ) < EPS * EPS := by
  have h : (0 : ℝ) < EPS := by
    rw [EPS]; positivity
  nlinarith

theorem sumSq_map_mul (v : List ℝ) (c : ℝ) :
    sumSq (v.map fun x => x * c) = sumSq v * (c * c) := by
  induction v with
  | nil => simp [sumSq_nil]
  | cons a t ih => rw [List.map_cons, sumSq_cons, sumSq_cons, ih]; ring

/-- C9 helper: the all-zero vector of any length is NaN-free with zero
norm. -/
theorem replicate_zero_eq_map (n : Nat) :
    List.replicate n (F.fin 0) = (List.replicate n (0 : ℝ)).map F.fin := by
  simp [List.map_replicate]

theorem sumSq_replicate_zero (n : Nat) : sumSq (List.replicate n (0 : ℝ)) = 0 := by
  induction n with
  | zero => simp [sumSq_nil]
  | succ m ih => rw [List.replicate_succ, sumSq_cons, ih]; ring

theorem normalize_length (v : List F) : (normalize v).length = v.length := by
  simp only [normalize]
  split_ifs <;> simp

/-- Real characterization of `normalize` on a NaN-free vector: the result is
NaN-free and its sum of squares is 0 (zero-vector branch) or exactly 1. -/
theorem normalize_map_fin (q : List ℝ) :
    ∃ qn : List ℝ, normalize (q.map F.fin) = qn.map F.fin ∧ qn.length = q.length ∧
      (sumSq qn = 0 ∨ sumSq qn = 1) := by
  unfold normalize
  rw [normSq_map_fin]
  by_cases h0 : sumSq q = 0
  · refine ⟨List.replicate q.length 0, ?_, by simp, Or.inl ?_⟩
    · rw [if_pos ⟨by rw [h0]; exact EPS_sq_pos, by rw [h0]⟩]
      simp [List.map_replicate]
    · exact sumSq_replicate_zero q.length
  · have hs : F.fin (sumSq q) ≠ F.fin 0 := by simp [h0]
    rw [if_neg (by simp [hs]), if_neg hs]
    have hpos : 0 < sumSq q := lt_of_le_of_ne (sumSq_nonneg q) (Ne.symm h0)
    refine ⟨q.map fun x => x * (1 / Real.sqrt (sumSq q)), ?_, by simp, Or.inr ?_⟩
    · simp only [F.sqrt, F.div, F.mul, List.map_map]
      apply List.map_congr_left
      intro a _
      simp [F.mul]
    · rw [sumSq_map_mul]
      have hsq : Real.sqrt (sumSq q) * Real.sqrt (sumSq q) = sumSq q :=
        Real.mul_self_sqrt (le_of_lt hpos)
      rw [div_mul_div_comm, one_mul, hsq, mul_one_div, div_self h0]

/-- C9: `normalize` maps the exact zero vector of any length to the zero
vector of the same length, by the explicit degenerate-case branch — no
division by zero occurs. -/
theorem normalize_zero_vector (n : Nat) :
    normalize (List.replicate n (F.fin 0)) = List.replicate n (F.fin 0) := by
  unfold normalize
  rw [replicate_zero_eq_map, normSq_map_fin, sumSq_replicate_zero]
  rw [if_pos ⟨EPS_sq_pos, rfl⟩]
  simp [List.map_replicate]

/-- C6: a query whose length differs from the engine's dimension makes
`AnnEngine::search` return the empty result list instead of an error. -/
theorem annSearch_dim_mismatch (eng : AnnEngine) (q : List F) (k : Nat)
    (h : q.length ≠ eng.dimension) : annSearch eng q k = [] := by
  unfold annSearch
  rw [if_pos h]

/-- C6 witness: a length-1 query against a dimension-2 engine returns
`[]`. -/
theorem annSearch_dim_mismatch_witness :
    ([F.fin 0] : List F).length ≠ (AnnEngine.mk (emptyDB 2) 2).dimension ∧
      annSearch (AnnEngine.mk (emptyDB 2) 2) [F.fin 0] 1 = [] :=
  ⟨by decide, annSearch_dim_mismatch (AnnEngine.mk (emptyDB 2) 2) [F.fin 0] 1 (by decide)⟩

/-! ### Codec round trip (C8) -/

theorem b64Index_b64Char : ∀ n < 64, b64Index (b64Char n) = some n := by decide

theorem b64Char_ne_pad : ∀ n < 64, b64Char n ≠ '=' := by decide

theorem b64Decode_two_pad (c1 c2 : Char) (i1 i2 : Nat)
    (h1 : b64Index c1 = some i1) (h2 : b64Index c2 = some i2) (h : i2 % 16 = 0) :
    b64DecodeBytes [c1, c2, '=', '='] = some [i1 * 4 + i2 / 16] := by
  unfold b64DecodeBytes
  rw [if_pos (show ([] : List Char) = [] ∧ '=' = '=' from ⟨rfl, rfl⟩), if_pos rfl,
    h1, h2]
  show (if i2 % 16 = 0 then (some [i1 * 4 + i2 / 16] : Option (List Nat)) else none)
      = some [i1 * 4 + i2 / 16]
  rw [if_pos h]

theorem b64Decode_one_pad (c1 c2 c3 : Char) (i1 i2 i3 : Nat)
    (h1 : b64Index c1 = some i1) (h2 : b64Index c2 = some i2)
    (h3 : b64Index c3 = some i3) (hc3 : c3 ≠ '=') (h : i3 % 4 = 0) :
    b64DecodeBytes [c1, c2, c3, '=']
      = some [i1 * 4 + i2 / 16, i2 % 16 * 16 + i3 / 4] := by
  unfold b64DecodeBytes
  rw [if_pos (show ([] : List Char) = [] ∧ '=' = '=' from ⟨rfl, rfl⟩), if_neg hc3,
    h1, h2, h3]
  show (if i3 % 4 = 0
      then (some [i1 * 4 + i2 / 16, i2 % 16 * 16 + i3 / 4] : Option (List Nat)) else none)
      = some [i1 * 4 + i2 / 16, i2 % 16 * 16 + i3 / 4]
  rw [if_pos h]

theorem b64Decode_quad (c1 c2 c3 c4 : Char) (rest : List Char) (bs : List Nat)
    (i1 i2 i3 i4 : Nat) (hno : ¬(rest = [] ∧ c4 = '='))
    (h1 : b64Index c1 = some i1) (h2 : b64Index c2 = some i2)
    (h3 : b64Index c3 = some i3) (h4 : b64Index c4 = some i4)
    (hrest : b64DecodeBytes rest = some bs) :
    b64DecodeBytes (c1 :: c2 :: c3 :: c4 :: rest)
      = some ((i1 * 4 + i2 / 16) :: (i2 % 16 * 16 + i3 / 4) :: (i3 % 4 * 64 + i4) :: bs) := by
  unfold b64DecodeBytes
  rw [if_neg hno, h1, h2, h3, h4, hrest]

theorem b64_roundtrip : ∀ bs : List Nat, (∀ b ∈ bs, b < 256) →
    b64DecodeBytes (b64EncodeBytes bs) = some bs
  | [], _ => rfl
  | [a], h => by
    have ha : a < 256 := h a (by simp)
    rw [show b64EncodeBytes [a] = [b64Char (a / 4), b64Char (a % 4 * 16), '=', '=']
      from rfl]
    rw [b64Decode_two_pad _ _ _ _ (b64Index_b64Char _ (by omega))
      (b64Index_b64Char _ (by omega)) (by omega)]
    simp only [Option.some.injEq, List.cons.injEq, and_true]
    omega
  | [a, b], h => by
    have ha : a < 256 := h a (by simp)
    have hb : b < 256 := h b (by simp)
    rw [show b64EncodeBytes [a, b]
      = [b64Char (a / 4), b64Char (a % 4 * 16 + b / 16), b64Char (b % 16 * 4), '=']
      from rfl]
    rw [b64Decode_one_pad _ _ _ _ _ _ (b64Index_b64Char _ (by omega))
      (b64Index_b64Char _ (by omega)) (b64Index_b64Char _ (by omega))
      (b64Char_ne_pad _ (by omega)) (by omega)]
    simp only [Option.some.injEq, List.cons.injEq, and_true]
    constructor
    · omega
    · omega
  | a :: b :: c :: rest, h => by
    have ha : a < 256 := h a (by simp)
    have hb : b < 256 := h b (by simp)
    have hc : c < 256 := h c (by simp)
    have ih := b64_roundtrip rest (fun x hx => h x (by simp [hx]))
    rw [show b64EncodeBytes (a :: b :: c :: rest)
      = b64Char (a / 4) :: b64Char (a % 4 * 16 + b / 16)
        :: b64Char (b % 16 * 4 + c / 64) :: b64Char (c % 64)
        :: b64EncodeBytes rest from rfl]
    rw [b64Decode_quad _ _ _ _ _ _ _ _ _ _
      (by rintro ⟨-, h4'⟩; exact b64Char_ne_pad (c % 64) (by omega) h4')
      (b64Index_b64Char _ (by omega)) (b64Index_b64Char _ (by omega))
      (b64Index_b64Char _ (by omega)) (b64Index_b64Char _ (by omega)) ih]
    simp only [Option.some.injEq, List.cons.injEq, and_true]
    refine ⟨by omega, by omega, by omega⟩

theorem word_le_roundtrip (w : Nat) (h : w < 4294967296) :
    wordOfLeBytes (wordLeBytes w) = w := by
  simp only [wordLeBytes, wordOfLeBytes]
  omega

theorem wordLeBytes_lt (w : Nat) : ∀ b ∈ wordLeBytes w, b < 256 := by
  intro b hb
  simp only [wordLeBytes, List.mem_cons, List.mem_singleton, List.not_mem_nil,
    or_false] at hb
  rcases hb with h | h | h | h <;> subst h <;> omega

theorem chunksExact4_flatten (ws : List Nat) :
    chunksExact4 (ws.map wordLeBytes).flatten = ws.map wordLeBytes := by
  induction ws with
  | nil => rfl
  | cons w t ih =>
    have hstep : chunksExact4 (wordLeBytes w ++ (t.map wordLeBytes).flatten)
        = wordLeBytes w :: chunksExact4 (t.map wordLeBytes).flatten := rfl
    simp only [List.map_cons, List.flatten_cons, hstep, ih]

/-- C8: the matrix codec round-trips exactly — packing any float32 buffer
(given by its 32-bit patterns) as little-endian bytes, text-encoding it in
base64, decoding the text and rebuilding floats from 4-byte chunks yields
the original buffer bit for bit. -/
theorem matrix_codec_roundtrip (ws : List Nat) (h : ∀ w ∈ ws, w < 4294967296) :
    deserializeMatrix (serializeMatrix ws) = some ws := by
  unfold serializeMatrix deserializeMatrix
  rw [b64_roundtrip _ (by
    intro b hb
    rw [List.mem_flatten] at hb
    obtain ⟨l, hl, hbl⟩ := hb
    rw [List.mem_map] at hl
    obtain ⟨w, _, rfl⟩ := hl
    exact wordLeBytes_lt w b hbl)]
  simp only [Option.map_some', chunksExact4_flatten, List.map_map]
  congr 1
  have : ∀ v ∈ ws, (wordOfLeBytes ∘ wordLeBytes) v = id v := by
    intro v hv
    simp [word_le_roundtrip v (h v hv)]
  calc ws.map (wordOfLeBytes ∘ wordLeBytes) = ws.map id := List.map_congr_left this
  _ = ws := List.map_id ws

/-- C8 witness: a concrete three-float buffer (bit patterns of `0.0`, `1.0`
and `-1.0`) survives the round trip unchanged. -/
theorem matrix_codec_roundtrip_witness :
    (∀ w ∈ [0, 1065353216, 3212836864], w < 4294967296) ∧
      deserializeMatrix (serializeMatrix [0, 1065353216, 3212836864])
        = some [0, 1065353216, 3212836864] :=
  ⟨by decide, matrix_codec_roundtrip [0, 1065353216, 3212836864] (by decide)⟩

/-! ### C1: the dense-contiguity invariant is broken by delete after load -/

/-- C1 (failing run): loading a persisted two-entry store of dimension 1
succeeds and satisfies the invariant, but because deserialized entries carry
empty `vector` fields (`#[serde(skip)]`), a subsequent `delete` of `"a"`
rebuilds the matrix from those empty vectors: one entry remains while the
matrix shrinks to length 0, so `matrix.length ≠ len() * embedding_dim`. -/
theorem delete_after_load_breaks_invariant :
    loadDB 1 c1Persisted = .ok c1Loaded ∧
    c1Loaded.matrix.length = dbLen c1Loaded * c1Loaded.embedding_dim ∧
    (delete c1Loaded ["a"]).1 = 1 ∧
    dbLen (delete c1Loaded ["a"]).2 = 1 ∧
    (delete c1Loaded ["a"]).2.matrix.length = 0 ∧
    (delete c1Loaded ["a"]).2.matrix.length ≠
      dbLen (delete c1Loaded ["a"]).2 * (delete c1Loaded ["a"]).2.embedding_dim := by
  refine ⟨rfl, rfl, rfl, rfl, rfl, by decide⟩

/-! ### C2: the reversed `Ord` retains NaN and evicts the lowest real score -/

theorem siLE_nan_fin (i j : Nat) (x : ℝ) : siLE ⟨F.nan, i⟩ ⟨F.fin x, j⟩ := by
  simp [siLE, siCmp, fpartialCmp, F.isNan]

theorem not_siLE_fin_nan (i j : Nat) (x : ℝ) : ¬ siLE ⟨F.fin x, i⟩ ⟨F.nan, j⟩ := by
  simp [siLE, siCmp, fpartialCmp, F.isNan]

/-- C2 (failing run): with `top_k = 2`, after pushing scores `0.9`, `NaN`
and `0.5` the over-full candidate set evicts via `pop`, which removes the
`Ord`-greatest element.  `ScoredIndex`'s NaN branch makes NaN compare `Less`
than every real score (the claim's comparison clause), but under the
*reversed* ordering that makes NaN the `Ord`-minimum, so `pop` evicts the
real score `0.5` and the NaN candidate is retained — the opposite of the
claimed eviction behaviour. -/
theorem nan_retained_on_eviction :
    siCmp ⟨F.nan, 0⟩ ⟨F.fin (1 / 2), 2⟩ = .lt ∧
    heapPush ⟨F.nan, 0⟩ (heapPush ⟨F.fin (9 / 10), 1⟩ [])
      = [⟨F.nan, 0⟩, ⟨F.fin (9 / 10), 1⟩] ∧
    heapPush ⟨F.fin (1 / 2), 2⟩ [⟨F.nan, 0⟩, ⟨F.fin (9 / 10), 1⟩]
      = [⟨F.nan, 0⟩, ⟨F.fin (9 / 10), 1⟩, ⟨F.fin (1 / 2), 2⟩] ∧
    heapPopMax [⟨F.nan, 0⟩, ⟨F.fin (9 / 10), 1⟩, ⟨F.fin (1 / 2), 2⟩]
      = [⟨F.nan, 0⟩, ⟨F.fin (9 / 10), 1⟩] := by
  refine ⟨by simp [siCmp, fpartialCmp, F.isNan], ?_, ?_, rfl⟩
  · unfold heapPush
    rw [List.orderedInsert, List.orderedInsert, if_pos (siLE_nan_fin 0 1 (9 / 10))]
  · unfold heapPush
    rw [List.orderedInsert, if_neg (not_siLE_fin_nan 2 0 (1 / 2)),
      List.orderedInsert, if_neg ?_, List.orderedInsert]
    have : ¬ ((9 : ℝ) / 10 < 1 / 2) := by norm_num
    have h12 : (1 : ℝ) / 2 < 9 / 10 := by norm_num
    simp [siLE, siCmp, fpartialCmp, this, h12]
    norm_num

/-! ### C3: `NanoVectorDB::upsert` performs no dimension check -/

/-- C3 helper: normalizing the concrete vector `[0.0]` yields `[0.0]`. -/
theorem normalize_single_zero : normalize [F.fin 0] = [F.fin 0] := by
  simpa using normalize_zero_vector 1

/-- C3 (counterexample to the claim as stated): upserting a length-1 vector
into an empty store of dimension 2 does not fail — it returns `Ok` with
`"a"` inserted — and leaves `matrix.length = 1 ≠ len() * embedding_dim =
2`. -/
theorem upsert_accepts_wrong_dimension :
    upsert (emptyDB 2) [{ id := "a", vector := [F.fin 0], fields := [] }]
      = some ([], ["a"], c3DB) ∧
    c3DB.matrix.length ≠ dbLen c3DB * c3DB.embedding_dim := by
  refine ⟨?_, by decide⟩
  simp [upsert, applyBatch, appendNew, existingIdsMap, emptyDB, lookupAssoc,
    normalize_single_zero, c3DB]

/-! ### C7: duplicate new ids in one batch are both appended -/

/-- C7 (counterexample to the claim as stated): one upsert batch containing
two new items that share the id `"x"` appends both, so afterwards `"x"`
occurs twice among the store's entries. -/
theorem upsert_duplicate_new_ids :
    upsert (emptyDB 1)
        [{ id := "x", vector := [F.fin 0], fields := [] },
         { id := "x", vector := [F.fin 0], fields := [] }]
      = some ([], ["x", "x"], c7DB) ∧
    ¬ (c7DB.data.map Data.id).Nodup := by
  refine ⟨?_, by simp [c7DB]⟩
  simp [upsert, applyBatch, appendNew, existingIdsMap, emptyDB, lookupAssoc,
    normalize_single_zero, c7DB]

/-! ### Association-map and id-map lemmas -/

theorem lookup_upsertAssoc_self {α : Type} (m : List (String × α)) (k : String) (v : α) :
    lookupAssoc (upsertAssoc m k v) k = some v := by
  induction m with
  | nil => simp [upsertAssoc, lookupAssoc]
  | cons p t ih =>
    obtain ⟨k0, v0⟩ := p
    by_cases h : k0 = k
    · simp [upsertAssoc, h, lookupAssoc]
    · simp [upsertAssoc, h, lookupAssoc, ih]

theorem lookup_upsertAssoc_ne {α : Type} (m : List (String × α)) (k k' : String) (v : α)
    (h : k ≠ k') : lookupAssoc (upsertAssoc m k v) k' = lookupAssoc m k' := by
  induction m with
  | nil => simp [upsertAssoc, lookupAssoc, h]
  | cons p t ih =>
    obtain ⟨k0, v0⟩ := p
    by_cases h0 : k0 = k
    · subst h0
      simp [upsertAssoc, lookupAssoc, h]
    · by_cases h1 : k0 = k'
      · subst h1
        simp [upsertAssoc, h0, lookupAssoc, Ne.symm h]
      · simp [upsertAssoc, h0, lookupAssoc, h1, ih]

/-- Folding id→index insertions over pairs none of which carries `id` leaves
the lookup of `id` unchanged. -/
theorem lookup_foldl_not_mem (id : String) :
    ∀ (l : List (Nat × Data)), (∀ p ∈ l, p.2.id ≠ id) → ∀ m : List (String × Nat),
      lookupAssoc (l.foldl (fun m p => upsertAssoc m p.2.id p.1) m) id = lookupAssoc m id := by
  intro l
  induction l with
  | nil => intro _ m; rfl
  | cons p t ih =>
    intro h m
    rw [List.foldl_cons, ih (fun q hq => h q (by simp [hq]))]
    exact lookup_upsertAssoc_ne _ _ _ _ (h p (by simp))

/-- Folding id→index insertions over pairs one of which carries `id` makes
the lookup of `id` defined. -/
theorem lookup_foldl_mem (id : String) :
    ∀ (l : List (Nat × Data)), (∃ p ∈ l, p.2.id = id) → ∀ m : List (String × Nat),
      ∃ n, lookupAssoc (l.foldl (fun m p => upsertAssoc m p.2.id p.1) m) id = some n := by
  intro l
  induction l with
  | nil => intro h; simp at h
  | cons p t ih =>
    intro h m
    by_cases hmem : ∃ q ∈ t, q.2.id = id
    · exact ih hmem _
    · have hp : p.2.id = id := by
        obtain ⟨q, hq, hqid⟩ := h
        rcases List.mem_cons.1 hq with rfl | hq'
        · exact hqid
        · exact absurd ⟨q, hq', hqid⟩ hmem
      rw [List.foldl_cons,
        lookup_foldl_not_mem id t (fun q hq heq => hmem ⟨q, hq, heq⟩), hp]
      exact ⟨p.1, lookup_upsertAssoc_self _ _ _⟩

theorem existingIdsMap_none_iff (data : List Data) (id : String) :
    lookupAssoc (existingIdsMap data) id = none ↔ id ∉ data.map Data.id := by
  constructor
  · intro h hmem
    obtain ⟨d, hd, rfl⟩ := List.mem_map.1 hmem
    have hd' : ∃ p ∈ data.enum, p.2.id = d.id := by
      have : d ∈ data.enum.map Prod.snd := by rw [List.enum_map_snd]; exact hd
      obtain ⟨p, hp, hpd⟩ := List.mem_map.1 this
      exact ⟨p, hp, by rw [hpd]⟩
    obtain ⟨n, hn⟩ := lookup_foldl_mem d.id data.enum hd' []
    rw [existingIdsMap] at h
    rw [h] at hn
    cases hn
  · intro hnot
    rw [existingIdsMap, lookup_foldl_not_mem id data.enum ?_]
    · rfl
    · intro p hp heq
      refine hnot ?_
      rw [← heq]
      refine List.mem_map.2 ⟨p.2, ?_, rfl⟩
      have : p.2 ∈ data.enum.map Prod.snd := List.mem_map_of_mem Prod.snd hp
      rwa [List.enum_map_snd] at this

/-- Replacing only the `fields` of the entry at `pos` leaves the id list
unchanged. -/
theorem map_id_set_fields :
    ∀ (l : List Data) (pos : Nat) (d : Data) (f : Fields), l[pos]? = some d →
      ((l.set pos { d with fields := f }).map Data.id) = l.map Data.id := by
  intro l
  induction l with
  | nil => intro pos d f h; simp at h
  | cons a t ih =>
    intro pos d f h
    cases pos with
    | zero =>
      simp only [List.getElem?_cons_zero, Option.some.injEq] at h
      subst h
      simp
    | succ n =>
      simp only [List.getElem?_cons_succ] at h
      simp [ih n d f h]

/-- What the first `upsert` loop guarantees: the id list of the store is
unchanged, and `newItems` collects exactly the batch items whose id is
absent from the snapshot map, in order. -/
theorem applyBatch_spec (dim : Nat) (ex : List (String × Nat)) :
    ∀ (batch : List Data) (db : DataBase) (updates : List String) (newItems : List Data)
      (db1 : DataBase) (u1 : List String) (n1 : List Data),
      applyBatch dim ex db updates newItems batch = some (db1, u1, n1) →
      db1.data.map Data.id = db.data.map Data.id ∧
      n1 = newItems ++ batch.filter (fun it => (lookupAssoc ex it.id).isNone) := by
  intro batch
  induction batch with
  | nil =>
    intro db u n db1 u1 n1 h
    simp only [applyBatch, Option.some.injEq, Prod.mk.injEq] at h
    obtain ⟨rfl, rfl, rfl⟩ := h
    simp
  | cons item rest ih =>
    intro db u n db1 u1 n1 h
    cases hl : lookupAssoc ex item.id with
    | none =>
      simp only [applyBatch, hl] at h
      obtain ⟨hids, hn⟩ := ih _ _ _ _ _ _ h
      refine ⟨hids, ?_⟩
      rw [hn, List.filter_cons_of_pos (by simp [hl])]
      simp
    | some pos =>
      simp only [applyBatch, hl] at h
      by_cases hstop : pos * dim + dim ≤ db.matrix.length
      · rw [if_pos hstop] at h
        by_cases hlen : (normalize item.vector).length = dim
        · rw [if_pos hlen] at h
          obtain ⟨hids, hn⟩ := ih _ _ _ _ _ _ h
          refine ⟨?_, ?_⟩
          · rw [hids]
            cases hget : db.data[pos]? with
            | none => simp [hget]
            | some d => simp only [hget]; exact map_id_set_fields db.data pos d item.fields hget
          · rw [hn, List.filter_cons_of_neg (by simp [hl])]
        · rw [if_neg hlen] at h
          cases h
      · rw [if_neg hstop] at h
        obtain ⟨hids, hn⟩ := ih _ _ _ _ _ _ h
        exact ⟨hids, by rw [hn, List.filter_cons_of_neg (by simp [hl])]⟩

/-- What the second `upsert` loop guarantees: the new entries (with
normalized vectors) and their ids are appended in order. -/
theorem appendNew_spec :
    ∀ (items : List Data) (db : DataBase) (inserts : List String),
      (appendNew db inserts items).2 = inserts ++ items.map Data.id ∧
      (appendNew db inserts items).1.data
        = db.data ++ items.map (fun it =>
            { id := it.id, vector := normalize it.vector, fields := it.fields }) ∧
      (appendNew db inserts items).1.embedding_dim = db.embedding_dim := by
  intro items
  induction items with
  | nil => intro db ins; simp [appendNew]
  | cons item rest ih =>
    intro db ins
    simp only [appendNew]
    obtain ⟨h1, h2, h3⟩ := ih
      (DataBase.mk db.embedding_dim
        (db.data ++ [Data.mk item.id (normalize item.vector) item.fields])
        (db.matrix ++ normalize item.vector) db.additional_data)
      (ins ++ [item.id])
    exact ⟨by simp [h1], by simp [h2], by simp [h3]⟩

/-! ### C3 (amended): dimension validation lives in `add_items_batch` -/

/-- The item-construction loop fails on (the first) wrong-length item,
naming its id. -/
theorem buildItems_first_bad (dim : Nat) :
    ∀ pairs : List (List F × String), (∃ p ∈ pairs, p.1.length ≠ dim) →
      ∃ emb id, (emb, id) ∈ pairs ∧ emb.length ≠ dim ∧
        buildItems dim pairs = .error (dimMismatchMsg id dim emb.length) := by
  intro pairs
  induction pairs with
  | nil => intro h; simp at h
  | cons p rest ih =>
    intro h
    obtain ⟨emb, id⟩ := p
    by_cases hbad : emb.length ≠ dim
    · exact ⟨emb, id, by simp, hbad, by simp [buildItems, if_pos hbad]⟩
    · have hrest : ∃ q ∈ rest, q.1.length ≠ dim := by
        obtain ⟨q, hq, hql⟩ := h
        rcases List.mem_cons.1 hq with rfl | hq'
        · exact absurd hql hbad
        · exact ⟨q, hq', hql⟩
      obtain ⟨e', i', hmem, hne, heq⟩ := ih hrest
      refine ⟨e', i', by simp [hmem], hne, ?_⟩
      rw [buildItems, if_neg hbad, heq]

/-- C3 (amended): when any embedding in the batch has the wrong length,
`AnnEngine::add_items_batch` fails with an error naming an offending id (the
first one), before any store mutation — the error is produced while building
the items, prior to `upsert`/`save`. -/
theorem addItemsBatch_dim_mismatch (eng : AnnEngine) (embeddings : List (List F))
    (ids : List String) (hlen : embeddings.length = ids.length)
    (hbad : ∃ p ∈ embeddings.zip ids, p.1.length ≠ eng.dimension) :
    ∃ emb id, (emb, id) ∈ embeddings.zip ids ∧ emb.length ≠ eng.dimension ∧
      addItemsBatch eng embeddings ids
        = .error (dimMismatchMsg id eng.dimension emb.length) := by
  obtain ⟨emb, id, hmem, hne, herr⟩ := buildItems_first_bad eng.dimension
    (embeddings.zip ids) hbad
  refine ⟨emb, id, hmem, hne, ?_⟩
  rw [addItemsBatch, if_neg (by simp [hlen]), herr]

/-- C3 witness: a length-1 embedding against a dimension-2 engine is
rejected by `add_items_batch` with an error naming its id. -/
theorem addItemsBatch_dim_mismatch_witness :
    ([[F.fin 0]] : List (List F)).length = (["a"] : List String).length ∧
    (∃ p ∈ ([[F.fin 0]] : List (List F)).zip ["a"],
      p.1.length ≠ (AnnEngine.mk (emptyDB 2) 2).dimension) ∧
    ∃ emb id, (emb, id) ∈ ([[F.fin 0]] : List (List F)).zip ["a"] ∧
      emb.length ≠ (AnnEngine.mk (emptyDB 2) 2).dimension ∧
      addItemsBatch (AnnEngine.mk (emptyDB 2) 2) [[F.fin 0]] ["a"]
        = .error (dimMismatchMsg id (AnnEngine.mk (emptyDB 2) 2).dimension emb.length) :=
  ⟨rfl, ⟨([F.fin 0], "a"), by simp, by simp⟩,
    addItemsBatch_dim_mismatch (AnnEngine.mk (emptyDB 2) 2) [[F.fin 0]] ["a"] rfl
      ⟨([F.fin 0], "a"), by simp, by simp⟩⟩

/-! ### C7 (amended): uniqueness is preserved when new ids are distinct -/

/-- C7 (amended): upsert preserves the no-duplicate-ids invariant provided
the batch items whose ids are not already in the store carry pairwise
distinct ids (the counterexample `upsert_duplicate_new_ids` shows the
unconditional claim fails). -/
theorem upsert_preserves_unique_ids (db : DataBase) (batch : List Data)
    (updates inserts : List String) (db' : DataBase)
    (hstore : (db.data.map Data.id).Nodup)
    (hbatch : ((batch.filter fun it =>
      !((db.data.map Data.id).contains it.id)).map Data.id).Nodup)
    (h : upsert db batch = some (updates, inserts, db')) :
    (db'.data.map Data.id).Nodup := by
  cases happ : applyBatch db.embedding_dim (existingIdsMap db.data) db [] [] batch with
  | none => rw [upsert, happ] at h; cases h
  | some res =>
    obtain ⟨db1, u1, n1⟩ := res
    obtain ⟨hids1, hn1⟩ := applyBatch_spec db.embedding_dim (existingIdsMap db.data)
      batch db [] [] db1 u1 n1 happ
    obtain ⟨-, hdata2, -⟩ := appendNew_spec n1 db1 []
    have hups : upsert db batch
        = some (u1, (appendNew db1 [] n1).2, (appendNew db1 [] n1).1) := by
      rw [upsert, happ]
    rw [hups] at h
    simp only [Option.some.injEq, Prod.mk.injEq] at h
    obtain ⟨-, -, hdb'⟩ := h
    have hfeq : ∀ it ∈ batch,
        ((lookupAssoc (existingIdsMap db.data) it.id).isNone)
          = (!((db.data.map Data.id).contains it.id)) := by
      intro it _
      by_cases hm : it.id ∈ db.data.map Data.id
      · have : lookupAssoc (existingIdsMap db.data) it.id ≠ none := by
          intro hnone
          exact ((existingIdsMap_none_iff db.data it.id).1 hnone) hm
        cases hv : lookupAssoc (existingIdsMap db.data) it.id with
        | none => exact absurd hv this
        | some v => simp [hv, hm]
      · rw [(existingIdsMap_none_iff db.data it.id).2 hm]
        simp [hm]
    have hfilter : batch.filter (fun it => (lookupAssoc (existingIdsMap db.data) it.id).isNone)
        = batch.filter (fun it => !((db.data.map Data.id).contains it.id)) :=
      List.filter_congr hfeq
    rw [← hdb', hdata2, hn1, hfilter, List.map_append, hids1, List.nil_append, List.map_map]
    have hcomp : (Data.id ∘ fun it =>
        Data.mk it.id (normalize it.vector) it.fields) = Data.id := by
      funext it
      rfl
    rw [hcomp]
    refine hstore.append hbatch ?_
    intro a ha hafil
    obtain ⟨it, hitmem, hitid⟩ := List.mem_map.1 hafil
    have hout2 : it.id ∉ db.data.map Data.id := by
      simpa using (List.mem_filter.1 hitmem).2
    rw [hitid] at hout2
    exact hout2 ha

/-- C7 witness: upserting one fresh item `"x"` into the empty store keeps
the id list duplicate-free. -/
theorem upsert_preserves_unique_ids_witness :
    upsert (emptyDB 1) [{ id := "x", vector := [F.fin 0], fields := [] }]
      = some ([], ["x"], c7WitDB) ∧
    (c7WitDB.data.map Data.id).Nodup := by
  have heval : upsert (emptyDB 1) [{ id := "x", vector := [F.fin 0], fields := [] }]
      = some ([], ["x"], c7WitDB) := by
    simp [upsert, applyBatch, appendNew, existingIdsMap, emptyDB, lookupAssoc,
      normalize_single_zero, c7WitDB]
  refine ⟨heval, upsert_preserves_unique_ids (emptyDB 1) _ [] ["x"] c7WitDB
    (by simp [emptyDB]) (by simp [emptyDB]) heval⟩

/-! ### C5: re-upserting an existing id replaces vector slice and fields -/

/-- On a duplicate-free store, the snapshot map resolves an entry's id to
its position. -/
theorem lookup_foldl_enumFrom_pos (id : String) :
    ∀ (data : List Data) (pos : Nat) (d : Data) (j : Nat) (m : List (String × Nat)),
      (data.map Data.id).Nodup → data[pos]? = some d → d.id = id →
      lookupAssoc ((data.enumFrom j).foldl (fun m p => upsertAssoc m p.2.id p.1) m) id
        = some (j + pos) := by
  intro data
  induction data with
  | nil => intro pos d j m _ h; simp at h
  | cons hd tl ih =>
    intro pos d j m hnodup hpos hid
    cases pos with
    | zero =>
      simp only [List.getElem?_cons_zero, Option.some.injEq] at hpos
      subst hpos
      rw [List.enumFrom_cons, List.foldl_cons]
      have hnot : ∀ p ∈ tl.enumFrom (j + 1), p.2.id ≠ id := by
        intro p hp heq
        have hmem : p.2 ∈ tl := by
          have h2 : p.2 ∈ (tl.enumFrom (j + 1)).map Prod.snd := List.mem_map_of_mem _ hp
          rwa [List.enumFrom_map_snd] at h2
        rw [List.map_cons, List.nodup_cons] at hnodup
        exact hnodup.1 (hid ▸ List.mem_map.2 ⟨p.2, hmem, heq⟩)
      rw [lookup_foldl_not_mem id _ hnot, hid]
      simpa using lookup_upsertAssoc_self m id j
    | succ n =>
      simp only [List.getElem?_cons_succ] at hpos
      rw [List.enumFrom_cons, List.foldl_cons]
      have hnodup' : (tl.map Data.id).Nodup := by
        rw [List.map_cons, List.nodup_cons] at hnodup
        exact hnodup.2
      rw [ih n d (j + 1) (upsertAssoc m hd.id j) hnodup' hpos hid]
      congr 1
      omega

theorem lookup_existingIdsMap_pos (data : List Data) (pos : Nat) (d : Data)
    (hnodup : (data.map Data.id).Nodup) (hpos : data[pos]? = some d) :
    lookupAssoc (existingIdsMap data) d.id = some pos := by
  have h := lookup_foldl_enumFrom_pos d.id data pos d 0 [] hnodup hpos rfl
  simpa [existingIdsMap, List.enum] using h

/-- C5: re-upserting an existing id overwrites exactly that entry's matrix
slice with the normalized new vector and replaces the entry's `fields`
wholesale (the new fields, nothing merged), and the number of entries is
unchanged. -/
theorem upsert_update_replaces (db : DataBase) (item : Data) (pos : Nat) (d0 : Data)
    (hnodup : (db.data.map Data.id).Nodup)
    (hmat : db.matrix.length = db.data.length * db.embedding_dim)
    (hpos : db.data[pos]? = some d0)
    (hid : d0.id = item.id)
    (hvlen : item.vector.length = db.embedding_dim) :
    upsert db [item]
      = some ([item.id], [],
        DataBase.mk db.embedding_dim
          (db.data.set pos { d0 with fields := item.fields })
          (db.matrix.take (pos * db.embedding_dim) ++ normalize item.vector
            ++ db.matrix.drop (pos * db.embedding_dim + db.embedding_dim))
          db.additional_data) ∧
    (db.data.set pos { d0 with fields := item.fields }).length = db.data.length := by
  have hlook : lookupAssoc (existingIdsMap db.data) item.id = some pos := by
    rw [← hid]
    exact lookup_existingIdsMap_pos db.data pos d0 hnodup hpos
  have hposlt : pos < db.data.length := by
    rcases lt_or_ge pos db.data.length with h | h
    · exact h
    · rw [List.getElem?_eq_none h] at hpos
      cases hpos
  have hstop : pos * db.embedding_dim + db.embedding_dim ≤ db.matrix.length := by
    rw [hmat]
    calc pos * db.embedding_dim + db.embedding_dim
        = (pos + 1) * db.embedding_dim := by ring
    _ ≤ db.data.length * db.embedding_dim := Nat.mul_le_mul_right _ hposlt
  have hnlen : (normalize item.vector).length = db.embedding_dim := by
    rw [normalize_length, hvlen]
  refine ⟨?_, List.length_set ..⟩
  rw [upsert]
  simp only [applyBatch, hlook, if_pos hstop, if_pos hnlen, hpos, appendNew,
    List.nil_append]

/-- C5 witness: replacing entry `"a"` of the concrete one-entry store with a
new vector and new fields leaves one entry whose fields are exactly the new
ones and whose matrix slice is the normalized new vector. -/
theorem upsert_update_replaces_witness :
    (upsert c5DB [Data.mk "a" [F.fin 0] [("color", JVal.jstr "blue")]]
      = some (["a"], [],
        DataBase.mk c5DB.embedding_dim
          (c5DB.data.set 0 { c5Entry with fields := [("color", JVal.jstr "blue")] })
          (c5DB.matrix.take (0 * c5DB.embedding_dim) ++ normalize [F.fin 0]
            ++ c5DB.matrix.drop (0 * c5DB.embedding_dim + c5DB.embedding_dim))
          c5DB.additional_data)) ∧
    (c5DB.data.set 0 { c5Entry with fields := [("color", JVal.jstr "blue")] }).length
      = c5DB.data.length :=
  upsert_update_replaces c5DB
    (Data.mk "a" [F.fin 0] [("color", JVal.jstr "blue")])
    0 c5Entry (by simp [c5DB, c5Entry]) (by simp [c5DB]) rfl rfl (by simp [c5DB])

/-! ### Order-theoretic facts about the heap ordering -/

/-- Characterization of the ascending heap order: an element may precede
another iff it is NaN-scored, or both are real-scored and its score is at
least the other's. -/
theorem siLE_iff (a b : ScoredIndex) :
    siLE a b ↔ a.score = F.nan ∨
      ∃ x y : ℝ, a.score = F.fin x ∧ b.score = F.fin y ∧ y ≤ x := by
  obtain ⟨sa, ia⟩ := a
  obtain ⟨sb, ib⟩ := b
  cases sa with
  | nan => cases sb <;> simp [siLE, siCmp, fpartialCmp, F.isNan]
  | fin x =>
    cases sb with
    | nan => simp [siLE, siCmp, fpartialCmp, F.isNan]
    | fin y =>
      simp only [siLE, siCmp, fpartialCmp]
      constructor
      · intro hne
        refine Or.inr ⟨x, y, rfl, rfl, ?_⟩
        by_contra hxy
        push_neg at hxy
        exact hne (by simp [if_neg (not_lt.2 (le_of_lt hxy)), if_pos hxy])
      · rintro (h | ⟨x', y', hx, hy, hle⟩)
        · cases h
        · obtain rfl : x' = x := by injection hx with hxx; exact hxx.symm
          obtain rfl : y' = y := by injection hy with hyy; exact hyy.symm
          simp [if_neg (not_lt.2 hle)]

theorem siLE_refl (a : ScoredIndex) : siLE a a := by
  rw [siLE_iff]
  cases ha : a.score with
  | nan => exact Or.inl rfl
  | fin x => exact Or.inr ⟨x, x, rfl, rfl, le_refl x⟩

instance : IsTotal ScoredIndex siLE :=
  ⟨by
    intro a b
    rw [siLE_iff, siLE_iff]
    cases ha : a.score with
    | nan => exact Or.inl (Or.inl rfl)
    | fin x =>
      cases hb : b.score with
      | nan => exact Or.inr (Or.inl rfl)
      | fin y =>
        rcases le_total y x with h | h
        · exact Or.inl (Or.inr ⟨x, y, rfl, rfl, h⟩)
        · exact Or.inr (Or.inr ⟨y, x, rfl, rfl, h⟩)⟩

instance : IsTrans ScoredIndex siLE :=
  ⟨by
    intro a b c hab hbc
    rw [siLE_iff] at hab hbc ⊢
    rcases hab with ha | ⟨x, y, hax, hby, hyx⟩
    · exact Or.inl ha
    · rcases hbc with hb | ⟨y', z, hby', hcz, hzy⟩
      · rw [hb] at hby
        cases hby
      · obtain rfl : y' = y := by
          rw [hby] at hby'
          injection hby' with hyy
          exact hyy.symm
        exact Or.inr ⟨x, z, hax, hcz, le_trans hzy hyx⟩⟩

theorem mem_heapPush {y x : ScoredIndex} {h : List ScoredIndex} :
    y ∈ heapPush x h ↔ y = x ∨ y ∈ h := List.mem_orderedInsert siLE

theorem heapPush_length (x : ScoredIndex) (h : List ScoredIndex) :
    (heapPush x h).length = h.length + 1 := List.orderedInsert_length siLE h x

theorem heapPush_sorted {x : ScoredIndex} {h : List ScoredIndex}
    (hs : List.Sorted siLE h) : List.Sorted siLE (heapPush x h) :=
  List.Sorted.orderedInsert x h hs

theorem mem_heapPopMax {y : ScoredIndex} {h : List ScoredIndex}
    (hy : y ∈ heapPopMax h) : y ∈ h :=
  (List.dropLast_sublist h).mem hy

theorem heapPopMax_sorted {h : List ScoredIndex} (hs : List.Sorted siLE h) :
    List.Sorted siLE (heapPopMax h) :=
  hs.sublist (List.dropLast_sublist h)

theorem heapPopMax_length (h : List ScoredIndex) :
    (heapPopMax h).length = h.length - 1 := List.length_dropLast h

theorem head?_heapPopMax {h : List ScoredIndex} (hlen : 2 ≤ h.length) :
    (heapPopMax h).head? = h.head? := by
  match h with
  | [] => simp at hlen
  | [a] => simp at hlen
  | a :: b :: t => rfl

theorem sorted_head_rel {h : List ScoredIndex} (hs : List.Sorted siLE h)
    {hd : ScoredIndex} (hhd : h.head? = some hd) : ∀ y ∈ h, siLE hd y := by
  cases h with
  | nil => cases hhd
  | cons a t =>
    obtain rfl : a = hd := by injection hhd
    intro y hy
    rcases List.mem_cons.1 hy with rfl | hy'
    · exact siLE_refl y
    · exact List.rel_of_sorted_cons hs y hy'

/-! ### C10: NaN scores never enter the candidate set -/

/-- Every element the scan loop ever holds in the heap passed the
`score >= threshold` test, which no NaN score can pass; so all heap scores
are real. -/
theorem fold_scores_fin (db : DataBase) (qn : List F) (thr : F) (k : Nat)
    (filt : Option (Data → Bool)) :
    ∀ (l : List (Nat × Data)) (h0 : List ScoredIndex),
      (∀ si ∈ h0, ∃ x : ℝ, si.score = F.fin x) →
      ∀ si ∈ l.foldl (queryStep db qn thr k filt) h0, ∃ x : ℝ, si.score = F.fin x := by
  intro l
  induction l with
  | nil => intro h0 hh0; exact hh0
  | cons p t ih =>
    intro h0 hh0
    rw [List.foldl_cons]
    apply ih
    intro si hsi
    simp only [queryStep] at hsi
    split_ifs at hsi with hfilt hoob hge hlen
    · exact hh0 si hsi
    · -- pushed and popped
      have hmem := mem_heapPush.1 (mem_heapPopMax hsi)
      rcases hmem with rfl | hold
      · obtain ⟨x, y, hx, -, -⟩ := (F.ge_iff_fin _ _).1 hge
        exact ⟨x, hx⟩
      · exact hh0 _ hold
    · have hmem := mem_heapPush.1 hsi
      rcases hmem with rfl | hold
      · obtain ⟨x, y, hx, -, -⟩ := (F.ge_iff_fin _ _).1 hge
        exact ⟨x, hx⟩
      · exact hh0 _ hold
    · exact hh0 si hsi
    · exact hh0 si hsi

/-- C10: no query result ever carries a NaN `__metrics__` value: a NaN
dot-product score fails the `score >= threshold` test (`F.ge F.nan t` is
false for every threshold, including the default `-1.0`), so it is never
pushed, and every emitted metric is a real number. -/
theorem query_no_nan_metrics :
    (∀ t : F, ¬ F.ge F.nan t) ∧
    ∀ (db : DataBase) (q : List F) (top_k : Nat) (better_than : Option F)
      (filter : Option (Data → Bool)),
      (query db q top_k better_than filter).Forall
        (fun r => ∃ x : ℝ, lookupAssoc r F_METRICS = some (JVal.jnum (F.fin x))) := by
  refine ⟨F.not_ge_nan, ?_⟩
  intro db q top_k bt filt
  rw [query]
  split_ifs with hemp
  · simp
  · rw [List.forall_iff_forall_mem]
    intro r hr
    obtain ⟨si, hsi, rfl⟩ := List.mem_map.1 hr
    obtain ⟨x, hx⟩ := fold_scores_fin db (normalize q) (bt.getD (F.fin (-1))) top_k filt
      db.data.enum [] (by simp) si hsi
    refine ⟨x, ?_⟩
    rw [mkResult, lookup_upsertAssoc_ne _ _ _ _ (by decide), lookup_upsertAssoc_self, hx]

/-! ### C4: bounded top-k — counts, descending order, true maximum first -/

theorem siLE_fin_le {a b : ScoredIndex} (h : siLE a b) {x y : ℝ}
    (ha : a.score = F.fin x) (hb : b.score = F.fin y) : y ≤ x := by
  rw [siLE_iff] at h
  rcases h with hnan | ⟨x', y', hx', hy', hle⟩
  · rw [hnan] at ha
    cases ha
  · rw [hx'] at ha
    rw [hy'] at hb
    injection ha with h1
    injection hb with h2
    rw [← h1, ← h2]
    exact hle

theorem mkResult_metric (db : DataBase) (si : ScoredIndex) :
    lookupAssoc (mkResult db si) F_METRICS = some (JVal.jnum si.score) := by
  rw [mkResult, lookup_upsertAssoc_ne _ _ _ _ (by decide), lookup_upsertAssoc_self]

/-- One step of the scan loop, with no filter and the default `-1.0`
threshold, on a store whose scores are real and at least `-1`: the candidate
set stays sorted, grows to `min (j+1) k`, holds only scores of processed
entries, and its head carries a maximal processed score. -/
theorem query_step_invariant (db : DataBase) (qn : List F) (k : Nat) (sc : Nat → ℝ)
    (hmat : db.matrix.length = db.data.length * db.embedding_dim)
    (hsc : ∀ i, i < db.data.length →
      simple_dot_product ((db.matrix.take (i * db.embedding_dim + db.embedding_dim)).drop
        (i * db.embedding_dim)) qn = F.fin (sc i) ∧ -1 ≤ sc i)
    (j : Nat) (d : Data) (h0 : List ScoredIndex) (hj : j < db.data.length)
    (hsort : List.Sorted siLE h0)
    (hlen : h0.length = min j k)
    (hmem : ∀ si ∈ h0, ∃ i, i < j ∧ si.score = F.fin (sc i))
    (hmax : 0 < k → 0 < j → ∃ hd i', h0.head? = some hd ∧ i' < j ∧
      hd.score = F.fin (sc i') ∧ ∀ i < j, sc i ≤ sc i') :
    List.Sorted siLE (queryStep db qn (F.fin (-1)) k none h0 (j, d)) ∧
    (queryStep db qn (F.fin (-1)) k none h0 (j, d)).length = min (j + 1) k ∧
    (∀ si ∈ queryStep db qn (F.fin (-1)) k none h0 (j, d),
      ∃ i, i < j + 1 ∧ si.score = F.fin (sc i)) ∧
    (0 < k → ∃ hd i', (queryStep db qn (F.fin (-1)) k none h0 (j, d)).head? = some hd ∧
      i' < j + 1 ∧ hd.score = F.fin (sc i') ∧ ∀ i < j + 1, sc i ≤ sc i') := by
  obtain ⟨hscj, hscj1⟩ := hsc j hj
  have hoob : ¬ (j * db.embedding_dim + db.embedding_dim > db.matrix.length) := by
    rw [hmat]
    push_neg
    calc j * db.embedding_dim + db.embedding_dim
        = (j + 1) * db.embedding_dim := by ring
    _ ≤ db.data.length * db.embedding_dim := Nat.mul_le_mul_right _ hj
  have hge : F.ge (F.fin (sc j)) (F.fin (-1)) := hscj1
  have hstep : queryStep db qn (F.fin (-1)) k none h0 (j, d)
      = (if (heapPush ⟨F.fin (sc j), j⟩ h0).length > k
         then heapPopMax (heapPush ⟨F.fin (sc j), j⟩ h0)
         else heapPush ⟨F.fin (sc j), j⟩ h0) := by
    simp only [queryStep, Option.map_none', Option.getD_none]
    rw [if_pos True.intro, if_neg hoob, hscj, if_pos hge]
  have hpushlen : (heapPush ⟨F.fin (sc j), j⟩ h0).length = min j k + 1 := by
    rw [heapPush_length, hlen]
  have hpushsort : List.Sorted siLE (heapPush ⟨F.fin (sc j), j⟩ h0) :=
    heapPush_sorted hsort
  have hpushmem : ∀ si ∈ heapPush ⟨F.fin (sc j), j⟩ h0,
      ∃ i, i < j + 1 ∧ si.score = F.fin (sc i) := by
    intro si hsi
    rcases mem_heapPush.1 hsi with rfl | hold
    · exact ⟨j, Nat.lt_succ_self j, rfl⟩
    · obtain ⟨i, hi, hsc'⟩ := hmem si hold
      exact ⟨i, Nat.lt_succ_of_lt hi, hsc'⟩
  have hpushmax : 0 < k → ∃ hd i',
      (heapPush ⟨F.fin (sc j), j⟩ h0).head? = some hd ∧ i' < j + 1 ∧
      hd.score = F.fin (sc i') ∧ ∀ i < j + 1, sc i ≤ sc i' := by
    intro hk0
    obtain ⟨hd1, t1, hcons⟩ : ∃ hd1 t1, heapPush ⟨F.fin (sc j), j⟩ h0 = hd1 :: t1 := by
      cases hc : heapPush ⟨F.fin (sc j), j⟩ h0 with
      | nil => rw [hc] at hpushlen; simp at hpushlen
      | cons a t => exact ⟨a, t, rfl⟩
    have hhd1 : (heapPush ⟨F.fin (sc j), j⟩ h0).head? = some hd1 := by rw [hcons]; rfl
    have hd1mem : hd1 ∈ heapPush ⟨F.fin (sc j), j⟩ h0 := by rw [hcons]; simp
    obtain ⟨i₁, hi₁, hscore₁⟩ := hpushmem hd1 hd1mem
    refine ⟨hd1, i₁, hhd1, hi₁, hscore₁, ?_⟩
    intro i hi
    have hrel := sorted_head_rel hpushsort hhd1
    rcases Nat.lt_succ_iff_lt_or_eq.1 hi with hij | heq
    · rcases Nat.eq_zero_or_pos j with rfl | hj0
      · omega
      · obtain ⟨hd0, i', hhd0, hi', hsc0, hall⟩ := hmax hk0 hj0
        have hd0mem : hd0 ∈ h0 := by
          cases h0 with
          | nil => cases hhd0
          | cons a t =>
            obtain rfl : a = hd0 := by injection hhd0
            simp
        have hle := siLE_fin_le (hrel hd0 (mem_heapPush.2 (Or.inr hd0mem))) hscore₁ hsc0
        exact le_trans (hall i hij) hle
    · rw [heq]
      exact siLE_fin_le (hrel ⟨F.fin (sc j), j⟩ (mem_heapPush.2 (Or.inl rfl)))
        hscore₁ rfl
  rw [hstep]
  by_cases hk : (heapPush ⟨F.fin (sc j), j⟩ h0).length > k
  · rw [if_pos hk]
    rw [hpushlen] at hk
    have hk1 : min j k = k :=
      le_antisymm (Nat.min_le_right j k) (Nat.lt_succ_iff.1 hk)
    have hkj : k ≤ j := by
      rcases le_or_lt k j with h | h
      · exact h
      · rw [Nat.min_eq_left (le_of_lt h)] at hk1
        omega
    refine ⟨heapPopMax_sorted hpushsort, ?_, ?_, ?_⟩
    · rw [heapPopMax_length, hpushlen, hk1,
        Nat.min_eq_right (le_trans hkj (Nat.le_succ j))]
      omega
    · intro si hsi
      exact hpushmem si (mem_heapPopMax hsi)
    · intro hk0
      obtain ⟨hd, i', hhd, hi', hsc', hall⟩ := hpushmax hk0
      refine ⟨hd, i', ?_, hi', hsc', hall⟩
      rw [head?_heapPopMax ?_, hhd]
      rw [hpushlen, hk1]
      omega
  · rw [if_neg hk]
    rw [hpushlen] at hk
    push_neg at hk
    have hjk : j < k := by
      rcases le_or_lt k j with h | h
      · rw [Nat.min_eq_right h] at hk
        omega
      · exact h
    refine ⟨hpushsort, ?_, hpushmem, hpushmax⟩
    rw [hpushlen, Nat.min_eq_left (le_of_lt hjk),
      Nat.min_eq_left (Nat.succ_le_of_lt hjk)]

/-- The scan loop invariant, folded over the tail of the entry list starting
at position `j`. -/
theorem query_fold_invariant (db : DataBase) (qn : List F) (k : Nat) (sc : Nat → ℝ)
    (hmat : db.matrix.length = db.data.length * db.embedding_dim)
    (hsc : ∀ i, i < db.data.length →
      simple_dot_product ((db.matrix.take (i * db.embedding_dim + db.embedding_dim)).drop
        (i * db.embedding_dim)) qn = F.fin (sc i) ∧ -1 ≤ sc i) :
    ∀ (tl : List Data) (j : Nat) (h0 : List ScoredIndex),
      j + tl.length ≤ db.data.length →
      List.Sorted siLE h0 → h0.length = min j k →
      (∀ si ∈ h0, ∃ i, i < j ∧ si.score = F.fin (sc i)) →
      (0 < k → 0 < j → ∃ hd i', h0.head? = some hd ∧ i' < j ∧
        hd.score = F.fin (sc i') ∧ ∀ i < j, sc i ≤ sc i') →
      List.Sorted siLE ((tl.enumFrom j).foldl (queryStep db qn (F.fin (-1)) k none) h0) ∧
      ((tl.enumFrom j).foldl (queryStep db qn (F.fin (-1)) k none) h0).length
        = min (j + tl.length) k ∧
      (∀ si ∈ (tl.enumFrom j).foldl (queryStep db qn (F.fin (-1)) k none) h0,
        ∃ i, i < j + tl.length ∧ si.score = F.fin (sc i)) ∧
      (0 < k → 0 < j + tl.length →
        ∃ hd i', ((tl.enumFrom j).foldl (queryStep db qn (F.fin (-1)) k none) h0).head?
            = some hd ∧ i' < j + tl.length ∧ hd.score = F.fin (sc i') ∧
          ∀ i < j + tl.length, sc i ≤ sc i') := by
  intro tl
  induction tl with
  | nil =>
    intro j h0 hle hsort hlen hmem hmax
    simp only [List.enumFrom, List.foldl_nil, List.length_nil, Nat.add_zero]
    exact ⟨hsort, hlen, hmem, fun hk hj => hmax hk hj⟩
  | cons d t ih =>
    intro j h0 hle hsort hlen hmem hmax
    rw [List.enumFrom_cons, List.foldl_cons]
    have hj : j < db.data.length := by
      simp only [List.length_cons] at hle
      omega
    obtain ⟨s1, l1, m1, x1⟩ := query_step_invariant db qn k sc hmat hsc j d h0 hj
      hsort hlen hmem hmax
    have hle' : (j + 1) + t.length ≤ db.data.length := by
      simp only [List.length_cons] at hle
      omega
    have hx1' : 0 < k → 0 < j + 1 → ∃ hd i',
        (queryStep db qn (F.fin (-1)) k none h0 (j, d)).head? = some hd ∧
        i' < j + 1 ∧ hd.score = F.fin (sc i') ∧ ∀ i < j + 1, sc i ≤ sc i' :=
      fun hk _ => x1 hk
    obtain ⟨s2, l2, m2, x2⟩ := ih (j + 1)
      (queryStep db qn (F.fin (-1)) k none h0 (j, d)) hle' s1 l1 m1 hx1'
    have harith : j + 1 + t.length = j + (d :: t).length := by
      simp only [List.length_cons]
      omega
    refine ⟨s2, ?_, ?_, ?_⟩
    · rw [l2, harith]
    · intro si hsi
      obtain ⟨i, hi, hs⟩ := m2 si hsi
      exact ⟨i, by omega, hs⟩
    · intro hk hpos
      obtain ⟨hd, i', hhd, hi', hs, hall⟩ := x2 hk (by omega)
      exact ⟨hd, i', hhd, by omega, hs, fun i hi => hall i (by omega)⟩

/-- C4: on a store whose matrix is real-valued with every row of squared
norm at most 1 (the data-model invariant: rows are unit or zero) and a
real-valued query of the store's dimension, with no score floor and no
predicate, `query` returns exactly `min M k` results; the results are
sorted descending by their `__metrics__` score; and when `M > 0` and
`k > 0` the first result carries a true maximum score: it is the score of
some entry and at least the score of every entry. -/
theorem query_topk_bounded (db : DataBase) (q : List F) (k : Nat) (qr m : List ℝ)
    (hq : q = qr.map F.fin)
    (hm : db.matrix = m.map F.fin)
    (hmat : db.matrix.length = db.data.length * db.embedding_dim)
    (hrows : ∀ i < db.data.length, sumSq (realRow m db.embedding_dim i) ≤ 1)
    (hqlen : q.length = db.embedding_dim) :
    (query db q k none none).length = min db.data.length k ∧
    (query db q k none none).Pairwise (fun r1 r2 => ∀ x y : ℝ,
      lookupAssoc r1 F_METRICS = some (JVal.jnum (F.fin x)) →
      lookupAssoc r2 F_METRICS = some (JVal.jnum (F.fin y)) → y ≤ x) ∧
    (0 < db.data.length → 0 < k →
      ∃ r rest x, query db q k none none = r :: rest ∧
        lookupAssoc r F_METRICS = some (JVal.jnum (F.fin x)) ∧
        (∃ i, i < db.data.length ∧ scoreAt db q i = F.fin x) ∧
        ∀ i, i < db.data.length → F.ge (F.fin x) (scoreAt db q i)) := by
  subst hq
  by_cases hemp : db.data.isEmpty
  · have hM : db.data.length = 0 := by
      rw [List.isEmpty_iff] at hemp
      rw [hemp]
      rfl
    rw [query, if_pos hemp]
    refine ⟨by simp [hM], by simp, ?_⟩
    intro h0 _
    rw [hM] at h0
    exact absurd h0 (lt_irrefl 0)
  · have hsc' : ∀ i, i < db.data.length → ∃ x : ℝ,
        simple_dot_product ((db.matrix.take (i * db.embedding_dim + db.embedding_dim)).drop
          (i * db.embedding_dim)) (normalize (qr.map F.fin)) = F.fin x ∧ -1 ≤ x := by
      intro i hi
      obtain ⟨qn, hqn, hqnlen, hqnsum⟩ := normalize_map_fin qr
      have hrow : (db.matrix.take (i * db.embedding_dim + db.embedding_dim)).drop
          (i * db.embedding_dim) = (realRow m db.embedding_dim i).map F.fin := by
        rw [hm, ← List.map_take, ← List.map_drop]
        rfl
      rw [hrow, hqn, sdp_map_fin]
      refine ⟨dotR (realRow m db.embedding_dim i) qn, rfl, ?_⟩
      refine (dotR_bounds _ _ (hrows i hi) ?_).1
      rcases hqnsum with h | h <;> simp only [h] <;> norm_num
    obtain ⟨sc, hsc⟩ : ∃ sc : Nat → ℝ, ∀ i, i < db.data.length →
        simple_dot_product ((db.matrix.take (i * db.embedding_dim + db.embedding_dim)).drop
          (i * db.embedding_dim)) (normalize (qr.map F.fin)) = F.fin (sc i) ∧ -1 ≤ sc i := by
      choose f hf using hsc'
      refine ⟨fun i => if h : i < db.data.length then f i h else 0, ?_⟩
      intro i hi
      simp only [dif_pos hi]
      exact hf i hi
    obtain ⟨sfin, lfin, mfin, xfin⟩ := query_fold_invariant db (normalize (qr.map F.fin))
      k sc hmat hsc db.data 0 [] (by simp) (by simp) (by simp) (by simp)
      (fun _ h => absurd h (lt_irrefl 0))
    simp only [Nat.zero_add] at lfin mfin xfin
    have hquery : query db (qr.map F.fin) k none none
        = ((db.data.enumFrom 0).foldl
            (queryStep db (normalize (qr.map F.fin)) (F.fin (-1)) k none) []).map
          (mkResult db) := by
      rw [query, if_neg hemp]
      rfl
    rw [hquery]
    refine ⟨?_, ?_, ?_⟩
    · rw [List.length_map, lfin]
    · rw [List.pairwise_map]
      refine List.Pairwise.imp_of_mem ?_ sfin
      intro a b ha hb hab x y hxa hyb
      rw [mkResult_metric] at hxa hyb
      have hax : a.score = F.fin x := by
        have h1 := Option.some.inj hxa
        injection h1
      have hby : b.score = F.fin y := by
        have h1 := Option.some.inj hyb
        injection h1
      exact siLE_fin_le hab hax hby
    · intro hM hk
      obtain ⟨hd, i', hhd, hi', hs, hall⟩ := xfin hk hM
      obtain ⟨t, ht⟩ : ∃ t, (db.data.enumFrom 0).foldl
          (queryStep db (normalize (qr.map F.fin)) (F.fin (-1)) k none) [] = hd :: t := by
        cases hc : (db.data.enumFrom 0).foldl
            (queryStep db (normalize (qr.map F.fin)) (F.fin (-1)) k none) [] with
        | nil => rw [hc] at hhd; cases hhd
        | cons a t =>
          rw [hc] at hhd
          obtain rfl : a = hd := by injection hhd
          exact ⟨t, rfl⟩
      rw [ht]
      refine ⟨mkResult db hd, t.map (mkResult db), sc i', by simp, ?_, ?_, ?_⟩
      · rw [mkResult_metric, hs]
      · exact ⟨i', hi', by rw [scoreAt, rowSlice]; exact (hsc i' hi').1⟩
      · intro i hi
        rw [scoreAt, rowSlice, (hsc i hi).1]
        exact hall i hi

/-- C4 witness: querying the concrete two-entry unit-row store with `k = 1`
returns exactly `min 2 1 = 1` result. -/
theorem query_topk_bounded_witness :
    (query c4DB [F.fin 1] 1 none none).length = min c4DB.data.length 1 :=
  (query_topk_bounded c4DB [F.fin 1] 1 [1] [1, 0] rfl rfl rfl
    (by
      intro i hi
      have hi2 : i < 2 := by simpa [c4DB] using hi
      clear hi
      interval_cases i <;> norm_num [realRow, sumSq, c4DB]) rfl).1

end RecipeOptim
